import Mathlib

/-!
Verification of the sweeper-rs scanner core against its specification.

The Rust sources embedded here are src/categories.rs, src/config.rs and
src/scanner/mod.rs.  The filesystem is modelled as a finite tree; paths are
lists of components (PathBuf components).  Conventions, each noted again at
the definition it concerns:

We model the Linux configuration of the per-platform tables (the crate
compiles one cfg(target_os) branch per build).

Machine integers: u64 sizes and counters are modelled as Nat without a
2^64 wrap; every size as well as every sum of sizes reachable by the
program is bounded far below 2^64 (physical storage), so overflow is not
part of any claim considered here.  Timestamps are seconds since the epoch
as Int; chrono Duration::days(n) is exactly 86400 * n seconds.  The one
place a cast can wrap, num_days() as u64 on a negative duration, is
modelled explicitly in isStaleAge.

f32 confidence values are modelled as rationals; every confidence constant
in the source is a two-decimal literal and the only operations are
addition of 0.10 and min with a cap, which the rational model mirrors
exactly at the branch level the claims talk about.

Rust str::to_lowercase and str::ends_with are modelled on the character
list of the name (ASCII-faithful, which covers every suffix table entry).

Locks: the items and stats mutexes of the store are modelled by explicit
acquisition outcomes in addItem, because add_item has dedicated failure
branches.  The found_artifacts mutex inside scan_project_directories can
only be poisoned by a panic inside one of its tiny closures, which contain
no panicking operation, so its acquisitions are modelled as succeeding.

Concurrency: the three strategies spawned by rayon::scope share only the
append-only store and are otherwise independent, so the set of emitted
items is schedule-independent; fullScanTrace models the admissible
serialisations at strategy granularity via an order parameter.  The
should_stop flag is polled but, as proved for claim C3, the code provides
no operation that ever sets it, so strategies receive it as a constant
Bool parameter.
-/

namespace Sweeper

/-- File categories, from categories.rs (FileCategory enum, 11 variants). -/
inductive FileCategory where
  | DevArtifact
  | PackageCache
  | IdeCache
  | BrowserCache
  | SystemCache
  | LogFile
  | TempFile
  | LargeFile
  | OldDownload
  | Duplicate
  | Unused
deriving DecidableEq

/-- Base confidence per category, from FileCategory::base_confidence. -/
def FileCategory.baseConfidence : FileCategory → ℚ
  | .TempFile => 95/100
  | .SystemCache => 92/100
  | .BrowserCache => 90/100
  | .PackageCache => 88/100
  | .IdeCache => 85/100
  | .LogFile => 85/100
  | .DevArtifact => 80/100
  | .OldDownload => 75/100
  | .LargeFile => 70/100
  | .Duplicate => 70/100
  | .Unused => 70/100

/-- Dev artifact directory names, CategoryPatterns::dev_artifact_dirs. -/
def devArtifactDirs : List String :=
  ["node_modules", "target", "build", "dist", ".build", "Pods", "DerivedData",
   ".gradle", "out", "bin", "obj", "__pycache__", ".pytest_cache", ".mypy_cache",
   "venv", ".venv", "vendor", ".next", ".nuxt", ".output", "coverage", ".coverage",
   ".tox", "eggs", "*.egg-info", ".eggs", "bower_components"]

/-- Temp file suffixes, CategoryPatterns::temp_extensions (verbatim, including
the entries containing upper-case letters). -/
def tempExtensions : List String :=
  [".tmp", ".temp", ".bak", ".swp", ".swo", "~", ".old", ".orig", ".DS_Store",
   "Thumbs.db", "._.DS_Store", "desktop.ini", ".crdownload", ".part", ".partial"]

/-- Log file suffixes, CategoryPatterns::log_extensions. -/
def logExtensions : List String := [".log", ".logs"]

/-- CategoryPatterns::stale_threshold_days. -/
def staleThresholdDays : Nat := 90

/-- CategoryPatterns::old_download_days. -/
def oldDownloadDays : Nat := 30

/-- CategoryPatterns::large_file_threshold. -/
def largeFileThreshold : Nat := 100 * 1024 * 1024

/-- A filesystem path as its list of components (PathBuf components). -/
abbrev Path := List String

/-- CategoryPatterns::package_cache_paths for the Linux build, as a function
of the home directory (dirs::home_dir). -/
def packageCachePaths : Option Path → List Path
  | none => []
  | some home =>
    [home ++ [".npm"], home ++ [".yarn", "cache"], home ++ [".pnpm-store"],
     home ++ [".cargo", "registry", "cache"], home ++ [".cargo", "git", "db"],
     home ++ [".gradle", "caches"], home ++ [".m2", "repository"],
     home ++ [".gem", "cache"], home ++ [".composer", "cache"],
     home ++ [".nuget", "packages"], home ++ [".cache", "pip"],
     home ++ [".cache", "go-build"]]

/-- CategoryPatterns::ide_cache_paths for the Linux build. -/
def ideCachePaths : Option Path → List Path
  | none => []
  | some home =>
    [home ++ [".vscode", "extensions"], home ++ [".cursor", "extensions"],
     home ++ [".zed", "extensions"], home ++ [".local", "share", "JetBrains"],
     home ++ [".config", "Code", "CachedData"],
     home ++ [".config", "Code", "CachedExtensions"]]

/-- CategoryPatterns::browser_cache_paths for the Linux build. -/
def browserCachePaths : Option Path → List Path
  | none => []
  | some home =>
    [home ++ [".cache", "google-chrome"], home ++ [".cache", "mozilla", "firefox"],
     home ++ [".cache", "chromium"], home ++ [".cache", "microsoft-edge"],
     home ++ [".cache", "BraveSoftware"]]

/-- Configuration record, from config.rs (Config).  The HashSet of enabled
categories is modelled as a list.  The scanner reads only scan_paths,
max_depth and follow_symlinks. -/
structure Config where
  scan_paths : List Path
  exclude_patterns : List String
  enabled_categories : List FileCategory
  large_file_threshold : Nat
  stale_days_threshold : Nat
  old_download_days : Nat
  show_hidden : Bool
  follow_symlinks : Bool
  max_depth : Nat
  use_trash : Bool
  dry_run : Bool

mutual
/-- A filesystem entry.  metaOk models whether fs metadata for the entry can
be read (entry.metadata() returning Ok); modified is the mtime in seconds,
none when metadata.modified() fails; entryErr models walkdir yielding an
Err for this entry (the entry is then skipped by every traversal and, for a
directory, its children are unreachable).  The model contains no symlinks,
so the follow_symlinks flag passed to WalkDir cannot affect a traversal. -/
inductive FsTree where
  | file (name : String) (metaOk : Bool) (size : Nat) (modified : Option Int)
      (entryErr : Bool)
  | dir (name : String) (metaOk : Bool) (modified : Option Int) (entryErr : Bool)
      (children : FsForest)
inductive FsForest where
  | nil
  | cons (t : FsTree) (ts : FsForest)
end

/-- The sibling list of a forest. -/
def FsForest.toList : FsForest → List FsTree
  | .nil => []
  | .cons t ts => t :: ts.toList

/-- Build a forest from a sibling list (used to write fixtures). -/
def FsForest.ofList : List FsTree → FsForest
  | [] => .nil
  | t :: ts => .cons t (FsForest.ofList ts)

/-- Component name of an entry (file_name). -/
def FsTree.name : FsTree → String
  | .file n _ _ _ _ => n
  | .dir n _ _ _ _ => n

/-- Whether the entry is a directory (file_type().is_dir()). -/
def FsTree.isDir : FsTree → Bool
  | .file _ _ _ _ _ => false
  | .dir _ _ _ _ _ => true

/-- Whether walkdir yields an Err for this entry. -/
def FsTree.entryErr : FsTree → Bool
  | .file _ _ _ _ e => e
  | .dir _ _ _ e _ => e

/-- Immediate children (empty for a file). -/
def FsTree.childrenOf : FsTree → List FsTree
  | .file _ _ _ _ _ => []
  | .dir _ _ _ _ cs => cs.toList

/-- Resolve a path below a node (component-wise lookup). -/
def subtree? : FsTree → Path → Option FsTree
  | t, [] => some t
  | .file _ _ _ _ _, _ :: _ => none
  | .dir _ _ _ _ cs, c :: rest =>
    match cs.toList.find? (fun t => t.name = c) with
    | some child => subtree? child rest
    | none => none

/-- Path::exists against the model filesystem. -/
def existsAt (fs : FsTree) (p : Path) : Bool := (subtree? fs p).isSome

/-- Path::is_dir against the model filesystem. -/
def isDirAt (fs : FsTree) (p : Path) : Bool :=
  match subtree? fs p with
  | some t => t.isDir
  | none => false

mutual
/-- Sum of the sizes of all file descendants of a node, Scanner::dir_size_parallel:
WalkDir over the subtree, keeping files, summing metadata.len() with a failed
metadata read contributing 0; an entry yielded as Err is dropped by
filter_map(e.ok()) and, for a directory, blocks enumeration below it. -/
def filesSum : FsTree → Nat
  | .file _ mOk sz _ eErr => if eErr then 0 else if mOk then sz else 0
  | .dir _ _ _ eErr cs => if eErr then 0 else filesSumForest cs
/-- Sum of filesSum over a forest of siblings. -/
def filesSumForest : FsForest → Nat
  | .nil => 0
  | .cons c cs => filesSum c + filesSumForest cs
end

/-- Scanner::dir_size_parallel invoked on a path of the filesystem; a path
that resolves to nothing yields 0 (WalkDir yields a single Err entry). -/
def dirSizeAt (fs : FsTree) (p : Path) : Nat :=
  match subtree? fs p with
  | some t => filesSum t
  | none => 0

/-- CategoryPatterns::system_cache_paths for the Linux build; the existence
tests on /tmp and /var/tmp are performed while building the table. -/
def systemCachePaths (fs : FsTree) : Option Path → List Path
  | none => []
  | some home =>
    [home ++ [".cache"]]
      ++ (if existsAt fs ["tmp"] then [["tmp"]] else [])
      ++ (if existsAt fs ["var", "tmp"] then [["var", "tmp"]] else [])

/-- The modified timestamp an entry yields to the scanner: metadata().ok()
chained with modified().ok(), with Utc::now() as the fallback. -/
def effModified (metaOk : Bool) (modified : Option Int) (now : Int) : Int :=
  if metaOk then modified.getD now else now

/-- The staleness test of the scanner: (now - modified).num_days() as u64
compared with the 90-day threshold.  chrono num_days truncates toward zero
and is bounded well inside i64, so the u64 cast is exact for a nonnegative
day count; a negative day count (modified in the future) wraps to at least
2^63 and therefore always exceeds the threshold. -/
def isStaleAge (now modified : Int) : Bool :=
  let d := (now - modified).tdiv 86400
  if d < 0 then true else decide ((staleThresholdDays : Int) ≤ d)

/-- One discovered item, from scanner/mod.rs (ScannedItem). -/
structure ScannedItem where
  path : Path
  name : String
  size : Nat
  category : FileCategory
  confidence : ℚ
  is_dir : Bool
  modified : Int
  accessed : Int
  is_stale : Bool
  hash : Option String
deriving DecidableEq

/-- Aggregate statistics, from scanner/mod.rs (ScanStats).  The two HashMaps
are modelled as association lists with the entry-or-insert update of the
source. -/
structure ScanStats where
  total_items : Nat
  total_size : Nat
  items_by_category : List (FileCategory × Nat)
  size_by_category : List (FileCategory × Nat)
  duration_ms : Nat
deriving DecidableEq

/-- ScanStats::default. -/
def ScanStats.empty : ScanStats :=
  { total_items := 0, total_size := 0, items_by_category := [],
    size_by_category := [], duration_ms := 0 }

/-- HashMap lookup with the absent-key-means-zero reading used by the
aggregate maps. -/
def lookup0 : List (FileCategory × Nat) → FileCategory → Nat
  | [], _ => 0
  | (k, v) :: rest, c => if k = c then v else lookup0 rest c

/-- map.entry(c).or_insert(0) += d. -/
def entryBump : List (FileCategory × Nat) → FileCategory → Nat → List (FileCategory × Nat)
  | [], c, d => [(c, d)]
  | (k, v) :: rest, c, d =>
    if k = c then (k, v + d) :: rest else (k, v) :: entryBump rest c d

/-- The result store: item list plus stats, both behind mutexes in the
source. -/
structure StoreState where
  items : List ScannedItem
  stats : ScanStats
deriving DecidableEq

/-- Scanner::add_item, with the outcome of each lock acquisition explicit.
If the items lock fails the item is dropped; if the items lock succeeds but
the stats lock fails the item is pushed with no aggregate update; otherwise
the push and all four aggregate updates happen together. -/
def addItem (itemsLockOk statsLockOk : Bool) (st : StoreState)
    (it : ScannedItem) : StoreState :=
  if !itemsLockOk then st
  else if !statsLockOk then { st with items := st.items ++ [it] }
  else
    { items := st.items ++ [it],
      stats :=
        { total_items := st.stats.total_items + 1,
          total_size := st.stats.total_size + it.size,
          items_by_category := entryBump st.stats.items_by_category it.category 1,
          size_by_category := entryBump st.stats.size_by_category it.category it.size,
          duration_ms := st.stats.duration_ms } }

/-- The store consistency invariant of the specification: total_items and
total_size match the item list, and both per-category maps match the
category-restricted count and size sum. -/
def StatsConsistent (st : StoreState) : Prop :=
  st.stats.total_items = st.items.length ∧
  st.stats.total_size = (st.items.map (fun it => it.size)).sum ∧
  ∀ c : FileCategory,
    lookup0 st.stats.items_by_category c
        = (st.items.filter (fun it => it.category = c)).length ∧
    lookup0 st.stats.size_by_category c
        = ((st.items.filter (fun it => it.category = c)).map (fun it => it.size)).sum

/-- ASCII lower-casing of one character (covers every character occurring in
the suffix tables). -/
def asciiLowerChar (c : Char) : Char :=
  if 'A' ≤ c ∧ c ≤ 'Z' then Char.ofNat (c.toNat + 32) else c

/-- Rust name.to_lowercase(), on the character list of the name. -/
def lowerName (s : String) : List Char := s.data.map asciiLowerChar

/-- Rust str::ends_with on a lower-cased name. -/
def nameEndsWith (s : List Char) (suffix : String) : Bool :=
  suffix.data.isSuffixOf s

/-- The file branch of the scan_project_directories loop body (lines 311-350):
suffix classification of a visited file, metadata read, nonzero-size check,
and construction of the TempFile or LogFile item. -/
def fileEmission (now : Int) (p : Path) (name : String) (metaOk : Bool)
    (size : Nat) (modified : Option Int) : Option ScannedItem :=
  let nameLower := lowerName name
  let isTemp := tempExtensions.any (fun ext => nameEndsWith nameLower ext)
  let isLog := logExtensions.any (fun ext => nameEndsWith nameLower ext)
  if isTemp || isLog then
    if metaOk then
      if size > 0 then
        let m := modified.getD now
        let category := if isTemp then FileCategory.TempFile else FileCategory.LogFile
        some { path := p, name := name, size := size, category := category,
               confidence := category.baseConfidence, is_dir := false,
               modified := m, accessed := m, is_stale := false, hash := none }
      else none
    else none
  else none

/-- One entry of the per-root pending_artifacts batch: path, name and the
mtime carried by the metadata captured at visit time (the push happens only
when entry.metadata() is Ok). -/
structure Pending where
  path : Path
  name : String
  modified : Option Int
deriving DecidableEq

/-- The dev-artifact item built by the deferred batch (lines 354-389). -/
def devArtifactItem (now : Int) (q : Pending) (size : Nat) : ScannedItem :=
  let m := q.modified.getD now
  let staleFlag := isStaleAge now m
  let c0 := FileCategory.DevArtifact.baseConfidence
  let c1 := if staleFlag then c0 + 1/10 else c0
  { path := q.path, name := q.name, size := size,
    category := FileCategory.DevArtifact, confidence := min c1 (98/100),
    is_dir := true, modified := m, accessed := m, is_stale := staleFlag,
    hash := none }

/-- An observable event of a scan: recording a path in the dominance set, or
handing an item to add_item. -/
inductive Event where
  | insert (p : Path)
  | emit (it : ScannedItem)
deriving DecidableEq

/-- The items carried by the emit events of a trace. -/
def emitsOf (tr : List Event) : List ScannedItem :=
  tr.filterMap (fun e => match e with | .emit it => some it | .insert _ => none)

/-- The paths carried by the insert events of a trace. -/
def insertsOf (tr : List Event) : List Path :=
  tr.filterMap (fun e => match e with | .insert p => some p | .emit _ => none)

/-- p is a strict descendant of P: Path::starts_with holds and the paths
differ. -/
def strictBelow (p P : Path) : Bool :=
  P.isPrefixOf p && !(p == P)

/-- The dominance property of the claim, as a trace check: seen collects the
paths inserted so far, and every emit must avoid being a strict descendant
of any of them. -/
def domOKb : List Event → List Path → Bool
  | [], _ => true
  | .insert P :: tr, seen => domOKb tr (P :: seen)
  | .emit it :: tr, seen =>
    seen.all (fun P => !strictBelow it.path P) && domOKb tr seen

/-- Mutable state threaded through scan_project_directories: the
found_artifacts set, the per-root pending_artifacts list, the event trace
(dominance insertions and emitted items, in program order) and the
files_scanned counter. -/
structure WState where
  artifacts : List Path
  pending : List Pending
  trace : List Event
  filesScanned : Nat

/-- Initial state of one scan_project_directories call. -/
def initW : WState :=
  { artifacts := [], pending := [], trace := [], filesScanned := 0 }

/-- The filter_entry predicate (lines 278-284): the entry is rejected when
its path starts_with any recorded artifact root. -/
def dominatedBy (arts : List Path) (p : Path) : Bool :=
  arts.any (fun a => a.isPrefixOf p)

mutual
/-- One visited entry of the WalkDir loop of scan_project_directories
(lines 278-352) at path p and the given depth.  Order of effects as in the
source: the cooperative-stop poll (a constant during any scan of this
code base, see claim C3), Err entries skipped, the dominance filter, the
files_scanned increment, then the dev-artifact directory branch (record the
root, defer the size) or the temp/log file branch; children are visited
only below the max_depth bound, and never below a recorded artifact root or
an Err entry. -/
def walkNode (now : Int) (shouldStop : Bool) (maxDepth : Nat) (t : FsTree)
    (p : Path) (depth : Nat) (st : WState) : WState :=
  if shouldStop then st
  else if t.entryErr then st
  else if dominatedBy st.artifacts p then st
  else
    let st1 : WState := { st with filesScanned := st.filesScanned + 1 }
    match t with
    | .file name metaOk size modified _ =>
      match fileEmission now p name metaOk size modified with
      | some it => { st1 with trace := st1.trace ++ [.emit it] }
      | none => st1
    | .dir name metaOk modified _ children =>
      if name ∈ devArtifactDirs then
        let st2 : WState :=
          { st1 with artifacts := p :: st1.artifacts,
                     trace := st1.trace ++ [.insert p] }
        if metaOk then
          { st2 with pending := st2.pending ++ [⟨p, name, modified⟩] }
        else st2
      else if depth < maxDepth then
        walkChildren now shouldStop maxDepth children p (depth + 1) st1
      else st1
termination_by structural t
/-- The children of a directory, visited left to right. -/
def walkChildren (now : Int) (shouldStop : Bool) (maxDepth : Nat)
    (ts : FsForest) (p : Path) (depth : Nat) (st : WState) : WState :=
  match ts with
  | .nil => st
  | .cons c cs =>
    walkChildren now shouldStop maxDepth cs p depth
      (walkNode now shouldStop maxDepth c (p ++ [c.name]) depth st)
termination_by structural ts
end

/-- The deferred dev-artifact batch run after each root walk (lines
354-390): every entry is size-measured and emitted; the rayon for_each body
polls the stop flag per element. -/
def processPending (fs : FsTree) (now : Int) (shouldStop : Bool) :
    List Pending → WState → WState
  | [], st => st
  | q :: qs, st =>
    let st1 : WState :=
      if shouldStop then st
      else
        { st with trace := st.trace ++ [.emit (devArtifactItem now q (dirSizeAt fs q.path))] }
    processPending fs now shouldStop qs st1

/-- The per-root loop of scan_project_directories (lines 264-391): a root
that does not exist, or a stop poll reading true, skips to the next root;
otherwise the root subtree is walked (pending_artifacts starts empty for
each root) and its deferred batch is processed. -/
def scanRoots (fs : FsTree) (now : Int) (shouldStop : Bool) (maxDepth : Nat) :
    List Path → WState → WState
  | [], st => st
  | r :: rs, st =>
    match subtree? fs r with
    | none => scanRoots fs now shouldStop maxDepth rs st
    | some t =>
      if shouldStop then scanRoots fs now shouldStop maxDepth rs st
      else
        let st1 := walkNode now shouldStop maxDepth t r 0 { st with pending := [] }
        let st2 := processPending fs now shouldStop st1.pending
          { st1 with pending := [] }
        scanRoots fs now shouldStop maxDepth rs st2

/-- Scanner::scan_project_directories: entry stop check, then the loop over
config.scan_paths with the WalkDir bound config.max_depth.  The
follow_symlinks flag handed to WalkDir has no effect on the symlink-free
tree model. -/
def scanProjects (fs : FsTree) (now : Int) (shouldStop : Bool) (cfg : Config) :
    WState :=
  if shouldStop then initW
  else scanRoots fs now shouldStop cfg.max_depth cfg.scan_paths initW

/-- Event trace of the project-directory strategy. -/
def projectTrace (fs : FsTree) (now : Int) (cfg : Config) : List Event :=
  (scanProjects fs now false cfg).trace

/-- Items emitted by the project-directory strategy. -/
def projectItems (fs : FsTree) (now : Int) (cfg : Config) : List ScannedItem :=
  emitsOf (projectTrace fs now cfg)

/-- Whether fs::metadata on the node succeeds. -/
def FsTree.metaOk? : FsTree → Bool
  | .file _ m _ _ _ => m
  | .dir _ m _ _ _ => m

/-- The mtime stored on the node. -/
def FsTree.modified? : FsTree → Option Int
  | .file _ _ _ m _ => m
  | .dir _ _ m _ _ => m

/-- The whole-directory item emitted for a known cache root (lines 151-182). -/
def cacheRootItem (now : Int) (category : FileCategory) (p : Path)
    (t : FsTree) (size : Nat) : ScannedItem :=
  let m := effModified t.metaOk? t.modified? now
  { path := p, name := (p.getLast?).getD "", size := size, category := category,
    confidence := category.baseConfidence, is_dir := true, modified := m,
    accessed := m, is_stale := false, hash := none }

/-- Handling of one configured cache path (lines 146-185): it must exist and
be a directory, its recursive size must be positive, and then one item for
the whole directory is emitted. -/
def scanCachePath (fs : FsTree) (now : Int) (category : FileCategory)
    (p : Path) : List Event :=
  match subtree? fs p with
  | some t =>
    if t.isDir then
      let size := dirSizeAt fs p
      if size > 0 then [.emit (cacheRootItem now category p t size)] else []
    else []
  | none => []

/-- The item for one immediate subdirectory of a system cache root
(lines 222-245). -/
def sysChildItem (now : Int) (root : Path) (c : FsTree) (size : Nat) :
    ScannedItem :=
  let m := effModified c.metaOk? c.modified? now
  { path := root ++ [c.name], name := c.name, size := size,
    category := FileCategory.SystemCache,
    confidence := FileCategory.SystemCache.baseConfidence, is_dir := true,
    modified := m, accessed := m, is_stale := false, hash := none }

/-- Handling of one system-cache root (lines 198-247): the root must exist
and be a directory; the WalkDir bounded to depth 1 keeps exactly the
depth-1 entries that are directories, and each is emitted when its
recursive size exceeds 1 MiB. -/
def sysRootEvents (fs : FsTree) (now : Int) (shouldStop : Bool)
    (root : Path) : List Event :=
  match subtree? fs root with
  | some (.dir n mOk mod eErr cs) =>
    let t : FsTree := .dir n mOk mod eErr cs
    let entries := t.childrenOf.filter (fun c => !c.entryErr && c.isDir)
    entries.flatMap (fun c =>
      if shouldStop then []
      else
        let size := filesSum c
        if size > 1024 * 1024 then [.emit (sysChildItem now root c size)]
        else [])
  | some (.file _ _ _ _ _) => []
  | none => []

/-- Scanner::scan_system_caches (lines 191-249). -/
def scanSystemCaches (fs : FsTree) (home : Option Path) (now : Int)
    (shouldStop : Bool) : List Event :=
  if shouldStop then []
  else
    (systemCachePaths fs home).flatMap (fun root =>
      if shouldStop then [] else sysRootEvents fs now shouldStop root)

/-- Scanner::scan_known_cache_paths (lines 124-189): the three static cache
tables in their source order, each path handled independently, then the
system-cache pass. -/
def scanKnownCachePaths (fs : FsTree) (home : Option Path) (now : Int)
    (shouldStop : Bool) : List Event :=
  (if shouldStop then []
   else
     ([(packageCachePaths home, FileCategory.PackageCache),
       (ideCachePaths home, FileCategory.IdeCache),
       (browserCachePaths home, FileCategory.BrowserCache)].flatMap
        (fun pc =>
          if shouldStop then []
          else pc.1.flatMap (fun p =>
            if shouldStop then [] else scanCachePath fs now pc.2 p))))
    ++ scanSystemCaches fs home now shouldStop

/-- The old-download decision for one depth-1 file entry of the downloads
directory (lines 415-454): metadata must be readable, the modified time
must be strictly older than the 30-day threshold, and the item carries the
staleness bonus capped at 0.95. -/
def downloadDecision (now : Int) (dpath : Path) (t : FsTree) :
    Option ScannedItem :=
  match t with
  | .file name metaOk size modified _ =>
    if metaOk then
      let m := modified.getD now
      if m < now - (oldDownloadDays : Int) * 86400 then
        let staleFlag := isStaleAge now m
        let c0 := FileCategory.OldDownload.baseConfidence
        let c1 := if staleFlag then c0 + 1/10 else c0
        some { path := dpath ++ [name], name := name, size := size,
               category := FileCategory.OldDownload,
               confidence := min c1 (95/100), is_dir := false, modified := m,
               accessed := m, is_stale := staleFlag, hash := none }
      else none
    else none
  | .dir _ _ _ _ _ => none

/-- Scanner::scan_downloads (lines 394-455): the downloads directory must
resolve and exist; its depth-1 file entries are each tested by
downloadDecision. -/
def scanDownloads (fs : FsTree) (downloads : Option Path) (now : Int)
    (shouldStop : Bool) : List Event :=
  if shouldStop then []
  else
    match downloads with
    | none => []
    | some d =>
      match subtree? fs d with
      | none => []
      | some t =>
        ((t.childrenOf.filter (fun c => !c.entryErr && !c.isDir)).filterMap
          (fun c =>
            if shouldStop then none
            else (downloadDecision now d c).map Event.emit))

/-- The three traversal strategies spawned by rayon::scope. -/
inductive Strat where
  | knownCache
  | projects
  | downloads
deriving DecidableEq

/-- Event trace of one strategy. -/
def stratTrace (fs : FsTree) (home downloads : Option Path) (now : Int)
    (cfg : Config) : Strat → List Event
  | .knownCache => scanKnownCachePaths fs home now false
  | .projects => projectTrace fs now cfg
  | .downloads => scanDownloads fs downloads now false

/-- Event trace of one scan() call under one admissible serialisation of
the three concurrent strategies; rayon::scope may run them in any order, so
the order is a parameter.  The per-strategy traces are independent of the
interleaving (the strategies share only the append-only store), so every
finer interleaving yields the same event multiset and the same per-strategy
orderings as some strategy-level order. -/
def fullScanTrace (fs : FsTree) (home downloads : Option Path) (now : Int)
    (cfg : Config) (order : List Strat) : List Event :=
  (order.map (stratTrace fs home downloads now cfg)).flatten

/-- The item list returned by scan() under the given serialisation. -/
def scanItems (fs : FsTree) (home downloads : Option Path) (now : Int)
    (cfg : Config) (order : List Strat) : List ScannedItem :=
  emitsOf (fullScanTrace fs home downloads now cfg order)

/-- The stats accumulated by routing every emitted item through add_item
with both locks acquired (duration_ms is wall-clock time and stays at its
reset value in the model). -/
def scanStatsOf (items : List ScannedItem) : ScanStats :=
  (items.foldl (fun st it => addItem true true st it)
    { items := [], stats := ScanStats.empty }).stats

mutual
/-- Well-formedness of the model filesystem: sibling names within any
directory are distinct, as they are on a real filesystem. -/
def wfNames : FsTree → Bool
  | .file _ _ _ _ _ => true
  | .dir _ _ _ _ cs => decide ((cs.toList.map FsTree.name).Nodup) && wfForest cs
/-- Well-formedness of a sibling forest. -/
def wfForest : FsForest → Bool
  | .nil => true
  | .cons c cs => wfNames c && wfForest cs
end

/-- The public operations of Scanner that exist in scanner/mod.rs (new,
scan, is_scanning, files_scanned, current_path, get_items, get_stats).  The
source declares no operation that stores true into should_stop. -/
inductive ScannerOp where
  | scan
  | isScanningQ
  | filesScannedQ
  | currentPathQ
  | getItems
  | getStats

/-- The two atomic flags of the Scanner. -/
structure ScannerFlags where
  is_scanning : Bool
  should_stop : Bool

/-- Scanner::new. -/
def initFlags : ScannerFlags := { is_scanning := false, should_stop := false }

/-- Effect of one public operation on the flags: scan() stores true into
is_scanning, false into should_stop, runs the strategies, and stores false
into is_scanning before returning; every other operation only reads. -/
def applyOp (f : ScannerFlags) : ScannerOp → ScannerFlags
  | .scan => { f with is_scanning := false, should_stop := false }
  | _ => f

/-- Running a sequence of public operations from a fresh Scanner. -/
def runOps (ops : List ScannerOp) : ScannerFlags := ops.foldl applyOp initFlags

/-- Invariant satisfied by every item the project-directory strategy hands
to add_item: accessed mirrors modified, and a DevArtifact item carries
exactly the staleness flag and staleness-boosted capped confidence computed
from its own modified field. -/
def ProjP (now : Int) (it : ScannedItem) : Prop :=
  it.accessed = it.modified ∧
  (it.category = FileCategory.DevArtifact →
    it.is_stale = isStaleAge now it.modified ∧
    it.confidence =
      min (if isStaleAge now it.modified then
             FileCategory.DevArtifact.baseConfidence + 1/10
           else FileCategory.DevArtifact.baseConfidence) (98/100))

/-- Invariant carried through the project-directory walk: the trace so far
respects dominance, the artifact set and the insert events coincide, every
pending batch entry is itself a recorded artifact root, and no pending path
lies strictly below any recorded artifact root. -/
def TraceInv (st : WState) : Prop :=
  domOKb st.trace [] = true ∧
  (∀ P, P ∈ st.artifacts ↔ P ∈ insertsOf st.trace) ∧
  (∀ q ∈ st.pending, q.path ∈ st.artifacts) ∧
  (∀ q ∈ st.pending, ∀ P ∈ st.artifacts, strictBelow q.path P = false)

/-- Precondition of visiting path p: nothing already pending lies at or
below p (its subtree has not been visited yet). -/
def PrePend (p : Path) (st : WState) : Prop :=
  ∀ q ∈ st.pending, p.isPrefixOf q.path = false

/-- Precondition of visiting a sibling forest below p. -/
def PreChildren (p : Path) (ts : FsForest) (st : WState) : Prop :=
  ∀ q ∈ st.pending, ∀ c ∈ ts.toList,
    (p ++ [c.name]).isPrefixOf q.path = false

/-- Locality of one node visit at path p: every new artifact and every new
pending path lies below p, and nothing is removed. -/
def WalkOutN (p : Path) (st st2 : WState) : Prop :=
  (∀ a, a ∈ st2.artifacts → a ∈ st.artifacts ∨ p.isPrefixOf a = true) ∧
  (∀ a, a ∈ st.artifacts → a ∈ st2.artifacts) ∧
  (∀ q, q ∈ st2.pending → q ∈ st.pending ∨ p.isPrefixOf q.path = true) ∧
  (∀ q, q ∈ st.pending → q ∈ st2.pending)

/-- Locality of a sibling-forest visit below p: every new artifact and
every new pending path lies below one of the sibling paths. -/
def WalkOutF (p : Path) (ts : FsForest) (st st2 : WState) : Prop :=
  (∀ a, a ∈ st2.artifacts → a ∈ st.artifacts ∨
    ∃ c ∈ ts.toList, (p ++ [c.name]).isPrefixOf a = true) ∧
  (∀ a, a ∈ st.artifacts → a ∈ st2.artifacts) ∧
  (∀ q, q ∈ st2.pending → q ∈ st.pending ∨
    ∃ c ∈ ts.toList, (p ++ [c.name]).isPrefixOf q.path = true) ∧
  (∀ q, q ∈ st.pending → q ∈ st2.pending)

/-! Concrete fixtures used by witnesses and counterexamples. -/

/-- A store item used by the C1 counterexample. -/
def itemC1 : ScannedItem :=
  { path := ["a"], name := "a", size := 5, category := FileCategory.TempFile,
    confidence := 1, is_dir := false, modified := 0, accessed := 0,
    is_stale := false, hash := none }

/-- The empty store. -/
def emptyStore : StoreState := { items := [], stats := ScanStats.empty }

/-- A configuration whose scan roots are just the filesystem root. -/
def cfgRoot : Config :=
  { scan_paths := [[]], exclude_patterns := [], enabled_categories := [],
    large_file_threshold := 100 * 1024 * 1024, stale_days_threshold := 90,
    old_download_days := 30, show_hidden := true, follow_symlinks := false,
    max_depth := 20, use_trash := true, dry_run := false }

/-- C2 counterexample filesystem: the home directory is /build, a directory
whose name is in the dev-artifact table, and it contains the .npm package
cache with one file. -/
def fsC2 : FsTree :=
  .dir "" true none false
    (.ofList [.dir "build" true (some 0) false
      (.ofList [.dir ".npm" true (some 0) false
        (.ofList [.file "x" true 5 (some 0) false])])])

/-- C4 counterexample filesystem: /tmp is a system cache root whose only
immediate child is a 2 MiB file. -/
def fsC4 : FsTree :=
  .dir "" true none false
    (.ofList [.dir "tmp" true none false
      (.ofList [.file "big.bin" true 2097152 (some 0) false])])

/-- C5 witness filesystem: a single stale node_modules directory with one
3-byte file, modified at epoch second 0. -/
def fsC5 : FsTree :=
  .dir "" true none false
    (.ofList [.dir "node_modules" true (some 0) false
      (.ofList [.file "y" true 3 (some 0) false])])

/-- A configuration that agrees with cfgRoot on scan_paths, max_depth and
follow_symlinks and differs on every other field, for the C9 witness. -/
def cfgAlt : Config :=
  { scan_paths := [[]], exclude_patterns := ["x", ".git"],
    enabled_categories := [FileCategory.LogFile],
    large_file_threshold := 7, stale_days_threshold := 1,
    old_download_days := 2, show_hidden := false, follow_symlinks := false,
    max_depth := 20, use_trash := false, dry_run := true }

/-- C7 counterexample filesystem: a single file named app.tmp.log under the
scan root. -/
def fsC7 : FsTree :=
  .dir "" true none false
    (.ofList [.file "app.tmp.log" true 7 (some 0) false])

/-! Theorems. -/

theorem lookup0_entryBump (m : List (FileCategory × Nat)) (c x : FileCategory)
    (d : Nat) :
    lookup0 (entryBump m c d) x = lookup0 m x + if x = c then d else 0 := by
  induction m with
  | nil =>
    by_cases h : c = x
    · subst h; simp [entryBump, lookup0]
    · rw [if_neg (fun hx => h hx.symm)]
      simp [entryBump, lookup0, h]
  | cons kv rest ih =>
    obtain ⟨k, v⟩ := kv
    by_cases hk : k = c
    · subst hk
      by_cases hx : k = x
      · subst hx; simp [entryBump, lookup0]
      · rw [if_neg (fun hxc => hx hxc.symm)]
        simp [entryBump, lookup0, hx]
    · by_cases hx : k = x
      · subst hx
        rw [if_neg (fun hxc => hk hxc)]
        simp [entryBump, lookup0, hk]
      · simp [entryBump, lookup0, hk, hx, ih]

theorem filter_append_single (l : List ScannedItem) (it : ScannedItem)
    (p : ScannedItem → Bool) :
    (l ++ [it]).filter p = l.filter p ++ if p it then [it] else [] := by
  cases hp : p it <;> simp [List.filter_append, List.filter, hp]

/-- C1, amended.  The add_item critical section preserves the store
consistency invariant whenever the items lock fails (the item is dropped
with no update at all) or both locks are acquired (the append and all four
aggregate updates happen together); the remaining branch, items lock
acquired and stats lock failed, is the subject of the counterexample. -/
theorem claim_C1 (st : StoreState) (it : ScannedItem) (iOk sOk : Bool)
    (hc : StatsConsistent st) (h : iOk = false ∨ sOk = true) :
    StatsConsistent (addItem iOk sOk st it) := by
  obtain ⟨h1, h2, h3⟩ := hc
  rcases h with h | h
  · subst h; simpa [addItem] using ⟨h1, h2, h3⟩
  · subst h
    cases iOk with
    | false => simpa [addItem] using ⟨h1, h2, h3⟩
    | true =>
      refine ⟨?_, ?_, ?_⟩
      · simp [addItem, h1]
      · simp [addItem, h2]
      · intro c
        obtain ⟨h3a, h3b⟩ := h3 c
        constructor
        · rw [addItem]
          simp only [Bool.not_true, Bool.false_eq_true, if_false,
            reduceIte]
          rw [lookup0_entryBump, h3a, filter_append_single]
          by_cases hc2 : it.category = c
          · simp [hc2]
          · rw [if_neg (fun hcc => hc2 hcc.symm)]
            simp [hc2]
        · rw [addItem]
          simp only [Bool.not_true, Bool.false_eq_true, if_false,
            reduceIte]
          rw [lookup0_entryBump, h3b, filter_append_single]
          by_cases hc2 : it.category = c
          · simp [hc2]
          · rw [if_neg (fun hcc => hc2 hcc.symm)]
            simp [hc2]

/-- C1, witness: the amended preservation applied to the empty store with
both locks acquired. -/
theorem claim_C1_witness :
    StatsConsistent (addItem true true emptyStore itemC1) :=
  claim_C1 emptyStore itemC1 true true
    ⟨rfl, rfl, fun _ => ⟨rfl, rfl⟩⟩ (Or.inr rfl)

/-- C1, counterexample to the claim as stated: starting from the consistent
empty store, the add_item branch in which the items lock is acquired but
the stats lock fails appends the item without any aggregate update, so the
invariant does not survive that lock-failure branch. -/
theorem claim_C1_counterexample :
    StatsConsistent emptyStore ∧
      ¬ StatsConsistent (addItem true false emptyStore itemC1) := by
  refine ⟨⟨rfl, rfl, fun _ => ⟨rfl, rfl⟩⟩, fun h => ?_⟩
  have h1 := h.1
  simp [addItem, emptyStore, ScanStats.empty] at h1

/-- C3: the claim is right and the code is wrong.  The source declares the
should_stop flag and polls it at every loop boundary, but exposes no
request_stop() operation: no public operation of Scanner ever stores true
into the flag (scan() stores false), so across every sequence of calls the
flag stays false; the early-return cancellation machinery, here evaluated
at a true flag, is unreachable. -/
theorem claim_C3_code_bug :
    (∀ ops : List ScannerOp, (runOps ops).should_stop = false) ∧
    (∀ (fs : FsTree) (now : Int) (cfg : Config),
      scanProjects fs now true cfg = initW) := by
  constructor
  · have aux : ∀ (ops : List ScannerOp) (f : ScannerFlags),
        f.should_stop = false → (ops.foldl applyOp f).should_stop = false := by
      intro ops
      induction ops with
      | nil => intro f hf; simpa using hf
      | cons op rest ih =>
        intro f hf
        refine ih (applyOp f op) ?_
        cases op <;> simp [applyOp, hf]
    intro ops
    exact aux ops initFlags rfl
  · intro fs now cfg
    simp [scanProjects]

/-- C8: error containment inside the traversal machinery.  A file whose
metadata read fails contributes zero to a directory size; add_item with a
failed items lock drops the item and leaves the store untouched; and an
entry yielded as Err by the walker is skipped whole, emitting nothing,
recording nothing and descending nowhere, so scan() always completes with
the remaining (possibly partial) item list. -/
theorem claim_C8 :
    (∀ (n : String) (sz : Nat) (m : Option Int) (e : Bool),
      filesSum (.file n false sz m e) = 0) ∧
    (∀ (st : StoreState) (it : ScannedItem) (sOk : Bool),
      addItem false sOk st it = st) ∧
    (∀ (now : Int) (maxD : Nat) (p : Path) (depth : Nat) (n : String)
        (mOk : Bool) (mod : Option Int) (cs : FsForest) (st : WState),
      walkNode now false maxD (.dir n mOk mod true cs) p depth st = st) ∧
    (∀ (now : Int) (maxD : Nat) (p : Path) (depth : Nat) (n : String)
        (mOk : Bool) (sz : Nat) (mod : Option Int) (st : WState),
      walkNode now false maxD (.file n mOk sz mod true) p depth st = st) := by
  refine ⟨?_, ?_, ?_, ?_⟩
  · intro n sz m e; cases e <;> simp [filesSum]
  · intro st it sOk; simp [addItem]
  · intro now maxD p depth n mOk mod cs st
    simp [walkNode, FsTree.entryErr]
  · intro now maxD p depth n mOk sz mod st
    simp [walkNode, FsTree.entryErr]

/-- C4, amended.  An item is emitted by the system-cache strategy exactly
for the immediate subdirectory children (depth 1, directories only) of an
existing system-cache root directory whose recursive size exceeds 1 MiB;
every emitted item sits exactly one component below its root (so neither
the root itself nor anything deeper is emitted) and carries the SystemCache
base confidence and the measured size, as fixed by sysChildItem. -/
theorem claim_C4 (fs : FsTree) (home : Option Path) (now : Int)
    (it : ScannedItem) :
    Event.emit it ∈ scanSystemCaches fs home now false ↔
      ∃ root ∈ systemCachePaths fs home, ∃ t, subtree? fs root = some t ∧
        t.isDir = true ∧ ∃ c ∈ t.childrenOf, c.entryErr = false ∧
          c.isDir = true ∧ filesSum c > 1024 * 1024 ∧
          it = sysChildItem now root c (filesSum c) := by
  constructor
  · intro hin
    simp only [scanSystemCaches, Bool.false_eq_true, if_false,
      List.mem_flatMap] at hin
    obtain ⟨root, hroot, hin⟩ := hin
    refine ⟨root, hroot, ?_⟩
    cases hsub : subtree? fs root with
    | none => simp [sysRootEvents, hsub] at hin
    | some t =>
      cases t with
      | file n mOk sz mod eErr => simp [sysRootEvents, hsub] at hin
      | dir n mOk mod eErr cs =>
        refine ⟨.dir n mOk mod eErr cs, rfl, rfl, ?_⟩
        simp only [sysRootEvents, hsub, FsTree.childrenOf, List.mem_flatMap,
          List.mem_filter, Bool.and_eq_true, Bool.not_eq_true',
          Bool.false_eq_true, if_false] at hin
        obtain ⟨c, ⟨hc, herr, hcdir⟩, hev⟩ := hin
        by_cases hsz : filesSum c > 1024 * 1024
        · rw [if_pos hsz] at hev
          simp only [List.mem_singleton, Event.emit.injEq] at hev
          exact ⟨c, hc, herr, hcdir, hsz, hev⟩
        · rw [if_neg hsz] at hev
          simp at hev
  · rintro ⟨root, hroot, t, hsub, hdir, c, hc, herr, hcdir, hsz, hit⟩
    simp only [scanSystemCaches, Bool.false_eq_true, if_false,
      List.mem_flatMap]
    refine ⟨root, hroot, ?_⟩
    cases t with
    | file n mOk sz mod eErr => simp [FsTree.isDir] at hdir
    | dir n mOk mod eErr cs =>
      simp only [sysRootEvents, hsub, FsTree.childrenOf, List.mem_flatMap,
        List.mem_filter, Bool.and_eq_true, Bool.not_eq_true',
        Bool.false_eq_true, if_false]
      refine ⟨c, ⟨?_, herr, hcdir⟩, ?_⟩
      · simpa [FsTree.childrenOf] using hc
      · rw [if_pos hsz, hit]
        simp

/-- C4, counterexample to the claim as stated: /tmp is an existing
system-cache root whose sole immediate child is a 2 MiB file; the claim
requires an item for every immediate child whose size exceeds 1 MiB, but
the strategy filters the depth-1 entries to directories and emits
nothing. -/
theorem claim_C4_counterexample :
    subtree? fsC4 ["tmp"]
        = some (.dir "tmp" true none false
            (.ofList [.file "big.bin" true 2097152 (some 0) false])) ∧
      filesSum (.file "big.bin" true 2097152 (some 0) false) > 1024 * 1024 ∧
      scanSystemCaches fsC4 (some ["home", "u"]) 100 false = [] := by
  refine ⟨rfl, by decide, by decide⟩

/-- C6.  A depth-1 file entry of the downloads directory with readable
metadata and mtime m is emitted precisely when m is strictly older than
now minus 30 days; every emitted item is an OldDownload for the entry
itself; a file modified 30 days and 1 second ago is included and one
modified 29 days 23 hours ago is excluded. -/
theorem claim_C6 (now : Int) (dpath : Path) (name : String) (size : Nat)
    (m : Int) (e : Bool) :
    ((downloadDecision now dpath (.file name true size (some m) e)).isSome ↔
        m < now - 30 * 86400) ∧
    (∀ it, downloadDecision now dpath (.file name true size (some m) e)
          = some it →
        it.category = FileCategory.OldDownload ∧ it.path = dpath ++ [name] ∧
          it.size = size ∧ it.modified = m) ∧
    (m = now - (30 * 86400 + 1) →
      (downloadDecision now dpath (.file name true size (some m) e)).isSome
        = true) ∧
    (m = now - (29 * 86400 + 23 * 3600) →
      downloadDecision now dpath (.file name true size (some m) e) = none) := by
  have hdays : ((oldDownloadDays : Int)) * 86400 = 30 * 86400 := by
    simp [oldDownloadDays]
  refine ⟨?_, ?_, ?_, ?_⟩
  · rw [downloadDecision]
    simp only [if_true, Option.getD_some, hdays, gt_iff_lt]
    by_cases h : m < now - 30 * 86400
    · simp [h]
    · simp [h]
  · intro it hit
    rw [downloadDecision] at hit
    simp only [if_true, Option.getD_some, hdays] at hit
    by_cases h : m < now - 30 * 86400
    · rw [if_pos h] at hit
      cases hit
      exact ⟨rfl, rfl, rfl, rfl⟩
    · rw [if_neg h] at hit
      cases hit
  · intro hm
    rw [downloadDecision]
    simp only [if_true, Option.getD_some, hdays]
    rw [if_pos (by omega)]
    simp
  · intro hm
    rw [downloadDecision]
    simp only [if_true, Option.getD_some, hdays]
    rw [if_neg (by omega)]

/-- C6, witness: the two boundary cases of claim_C6 evaluated at now = 0 on
a concrete downloads entry. -/
theorem claim_C6_witness :
    ((downloadDecision 0 ["d"]
        (.file "f" true 3 (some (-2592001)) false)).isSome = true) ∧
      downloadDecision 0 ["d"]
          (.file "g" true 3 (some (-2588400)) false) = none :=
  ⟨(claim_C6 0 ["d"] "f" 3 (-2592001) false).2.2.1 (by norm_num),
    (claim_C6 0 ["d"] "g" 3 (-2588400) false).2.2.2 (by norm_num)⟩

/-- C7, amended.  For a file visited by the project walk: when its
lower-cased name ends with a temp suffix (and metadata is readable and the
size nonzero) exactly one TempFile item at base confidence is produced,
the temp check preceding the log check; when only a log suffix matches, a
LogFile item at base confidence; a zero-size file is never emitted.  The
example of the claim is corrected by the counterexample: app.tmp.log ends
with no temp suffix, only with .log, and is classified LogFile. -/
theorem claim_C7 (now : Int) (p : Path) (name : String) (metaOk : Bool)
    (size : Nat) (mod : Option Int) :
    (tempExtensions.any (fun ext => nameEndsWith (lowerName name) ext) = true →
      metaOk = true → size > 0 →
      ∃ it, fileEmission now p name metaOk size mod = some it ∧
        it.category = FileCategory.TempFile ∧
        it.confidence = FileCategory.TempFile.baseConfidence ∧
        it.path = p) ∧
    (tempExtensions.any (fun ext => nameEndsWith (lowerName name) ext) = false →
      logExtensions.any (fun ext => nameEndsWith (lowerName name) ext) = true →
      metaOk = true → size > 0 →
      ∃ it, fileEmission now p name metaOk size mod = some it ∧
        it.category = FileCategory.LogFile ∧
        it.confidence = FileCategory.LogFile.baseConfidence ∧
        it.path = p) ∧
    (size = 0 → fileEmission now p name metaOk size mod = none) := by
  refine ⟨?_, ?_, ?_⟩
  · intro ht hmeta hsz
    subst hmeta
    refine ⟨{ path := p, name := name, size := size,
              category := FileCategory.TempFile,
              confidence := FileCategory.TempFile.baseConfidence,
              is_dir := false, modified := mod.getD now,
              accessed := mod.getD now, is_stale := false, hash := none },
            ?_, rfl, rfl, rfl⟩
    rw [fileEmission]
    simp [ht, hsz]
  · intro ht hl hmeta hsz
    subst hmeta
    refine ⟨{ path := p, name := name, size := size,
              category := FileCategory.LogFile,
              confidence := FileCategory.LogFile.baseConfidence,
              is_dir := false, modified := mod.getD now,
              accessed := mod.getD now, is_stale := false, hash := none },
            ?_, rfl, rfl, rfl⟩
    rw [fileEmission]
    simp [ht, hl, hsz]
  · intro hsz
    subst hsz
    rw [fileEmission]
    by_cases hsuf : (tempExtensions.any (fun ext => nameEndsWith (lowerName name) ext)
        || logExtensions.any (fun ext => nameEndsWith (lowerName name) ext)) = true
    · rw [if_pos hsuf]
      cases metaOk <;> simp
    · rw [if_neg hsuf]

/-- C7, witness: the temp and log branches of claim_C7 at concrete names,
together with the zero-size branch. -/
theorem claim_C7_witness :
    (∃ it, fileEmission 0 ["a", "x.tmp"] "x.tmp" true 4 (some 0) = some it ∧
      it.category = FileCategory.TempFile ∧
      it.confidence = FileCategory.TempFile.baseConfidence ∧
      it.path = ["a", "x.tmp"]) ∧
    (∃ it, fileEmission 0 ["a", "b.log"] "b.log" true 4 (some 0) = some it ∧
      it.category = FileCategory.LogFile ∧
      it.confidence = FileCategory.LogFile.baseConfidence ∧
      it.path = ["a", "b.log"]) ∧
    fileEmission 0 ["a", "z.log"] "z.log" true 0 (some 0) = none :=
  ⟨(claim_C7 0 ["a", "x.tmp"] "x.tmp" true 4 (some 0)).1 (by decide) rfl
      (by decide),
    (claim_C7 0 ["a", "b.log"] "b.log" true 4 (some 0)).2.1 (by decide)
      (by decide) rfl (by decide),
    (claim_C7 0 ["a", "z.log"] "z.log" true 0 (some 0)).2.2 rfl⟩

theorem mem_emitsOf (tr : List Event) (it : ScannedItem) :
    it ∈ emitsOf tr ↔ Event.emit it ∈ tr := by
  simp only [emitsOf, List.mem_filterMap]
  constructor
  · rintro ⟨e, he, hfe⟩
    cases e with
    | insert p => simp at hfe
    | emit it2 => simp at hfe; subst hfe; exact he
  · intro h
    exact ⟨Event.emit it, h, rfl⟩

theorem fileEmission_some (now : Int) (p : Path) (n : String) (mOk : Bool)
    (sz : Nat) (mod : Option Int) (it : ScannedItem)
    (h : fileEmission now p n mOk sz mod = some it) :
    it.accessed = it.modified ∧
      (it.category = FileCategory.TempFile ∨
        it.category = FileCategory.LogFile) ∧
      it.path = p := by
  simp only [fileEmission] at h
  by_cases hor : (tempExtensions.any (fun ext => nameEndsWith (lowerName n) ext)
      || logExtensions.any (fun ext => nameEndsWith (lowerName n) ext)) = true
  · rw [if_pos hor] at h
    cases mOk with
    | false => simp at h
    | true =>
      rw [if_pos rfl] at h
      by_cases hsz : sz > 0
      · rw [if_pos hsz] at h
        simp only [Option.some.injEq] at h
        subst h
        refine ⟨rfl, ?_, rfl⟩
        by_cases ht : tempExtensions.any (fun ext => nameEndsWith (lowerName n) ext) = true
        · left; simp [ht]
        · right; simp [ht]
      · rw [if_neg hsz] at h
        simp at h
  · rw [if_neg hor] at h
    simp at h

theorem devArtifactItem_projP (now : Int) (q : Pending) (sz : Nat) :
    ProjP now (devArtifactItem now q sz) :=
  ⟨rfl, fun _ => ⟨rfl, rfl⟩⟩

theorem walkChildren_nil (now : Int) (b : Bool) (maxD : Nat) (p : Path)
    (d : Nat) (st : WState) : walkChildren now b maxD .nil p d st = st := rfl

theorem walkChildren_cons (now : Int) (b : Bool) (maxD : Nat) (p : Path)
    (d : Nat) (c : FsTree) (cs : FsForest) (st : WState) :
    walkChildren now b maxD (.cons c cs) p d st
      = walkChildren now b maxD cs p d
          (walkNode now b maxD c (p ++ [c.name]) d st) := rfl

mutual
theorem walkNode_projP (now : Int) (b : Bool) (maxD : Nat) (t : FsTree)
    (p : Path) (d : Nat) (st : WState)
    (hst : ∀ it, Event.emit it ∈ st.trace → ProjP now it) :
    ∀ it, Event.emit it ∈ (walkNode now b maxD t p d st).trace → ProjP now it := by
  intro it hit
  rw [walkNode] at hit
  by_cases hb : b = true
  · rw [if_pos hb] at hit; exact hst it hit
  · rw [if_neg hb] at hit
    by_cases he : t.entryErr = true
    · rw [if_pos he] at hit; exact hst it hit
    · rw [if_neg he] at hit
      by_cases hdom : dominatedBy st.artifacts p = true
      · rw [if_pos hdom] at hit; exact hst it hit
      · rw [if_neg hdom] at hit
        cases t with
        | file n mOk sz mod eErr =>
          simp only at hit
          cases hfe : fileEmission now p n mOk sz mod with
          | none => rw [hfe] at hit; exact hst it hit
          | some it2 =>
            rw [hfe] at hit
            simp only [List.mem_append, List.mem_singleton,
              Event.emit.injEq] at hit
            rcases hit with hit | hit
            · exact hst it hit
            · obtain ⟨hacc, hcat, -⟩ := fileEmission_some now p n mOk sz mod it2 hfe
              subst hit
              refine ⟨hacc, fun hdevc => ?_⟩
              rcases hcat with hcat | hcat <;> rw [hcat] at hdevc <;>
                exact absurd hdevc (by decide)
        | dir n mOk mod eErr cs =>
          simp only at hit
          by_cases hdev : n ∈ devArtifactDirs
          · rw [if_pos hdev] at hit
            have htr : ∀ (w : WState), Event.emit it ∈
                (if mOk = true then
                  { w with pending := w.pending ++ [⟨p, n, mod⟩] }
                 else w).trace → Event.emit it ∈ w.trace := by
              intro w hw
              cases mOk with
              | true => simpa using hw
              | false => simpa using hw
            have hit2 := htr _ hit
            simp only [List.mem_append, List.mem_singleton] at hit2
            rcases hit2 with hit2 | hit2
            · exact hst it hit2
            · cases hit2
          · rw [if_neg hdev] at hit
            by_cases hdepth : d < maxD
            · rw [if_pos hdepth] at hit
              refine walkChildren_projP now b maxD cs p (d + 1)
                { st with filesScanned := st.filesScanned + 1 }
                (fun it2 hit2 => hst it2 hit2) it hit
            · rw [if_neg hdepth] at hit
              exact hst it hit
theorem walkChildren_projP (now : Int) (b : Bool) (maxD : Nat)
    (ts : FsForest) (p : Path) (d : Nat) (st : WState)
    (hst : ∀ it, Event.emit it ∈ st.trace → ProjP now it) :
    ∀ it, Event.emit it ∈ (walkChildren now b maxD ts p d st).trace →
      ProjP now it := by
  intro it hit
  cases ts with
  | nil => rw [walkChildren_nil] at hit; exact hst it hit
  | cons c cs =>
    rw [walkChildren_cons] at hit
    exact walkChildren_projP now b maxD cs p d _
      (walkNode_projP now b maxD c (p ++ [c.name]) d st hst) it hit
end

theorem processPending_projP (fs : FsTree) (now : Int) (b : Bool)
    (qs : List Pending) (st : WState)
    (hst : ∀ it, Event.emit it ∈ st.trace → ProjP now it) :
    ∀ it, Event.emit it ∈ (processPending fs now b qs st).trace →
      ProjP now it := by
  induction qs generalizing st with
  | nil => intro it hit; rw [processPending] at hit; exact hst it hit
  | cons q qs ih =>
    intro it hit
    rw [processPending] at hit
    refine ih _ ?_ it hit
    intro it2 hit2
    by_cases hb : b = true
    · rw [if_pos hb] at hit2; exact hst it2 hit2
    · rw [if_neg hb] at hit2
      simp only [List.mem_append, List.mem_singleton,
        Event.emit.injEq] at hit2
      rcases hit2 with hit2 | hit2
      · exact hst it2 hit2
      · subst hit2; exact devArtifactItem_projP now q _

theorem scanRoots_projP (fs : FsTree) (now : Int) (b : Bool) (maxD : Nat)
    (rs : List Path) (st : WState)
    (hst : ∀ it, Event.emit it ∈ st.trace → ProjP now it) :
    ∀ it, Event.emit it ∈ (scanRoots fs now b maxD rs st).trace →
      ProjP now it := by
  induction rs generalizing st with
  | nil => intro it hit; rw [scanRoots] at hit; exact hst it hit
  | cons r rs ih =>
    intro it hit
    rw [scanRoots] at hit
    cases hsub : subtree? fs r with
    | none => simp only [hsub] at hit; exact ih st hst it hit
    | some t =>
      simp only [hsub] at hit
      by_cases hb : b = true
      · rw [if_pos hb] at hit; exact ih st hst it hit
      · rw [if_neg hb] at hit
        refine ih _ ?_ it hit
        exact processPending_projP fs now b _ _
          (walkNode_projP now b maxD t r 0 { st with pending := [] } hst)

theorem projectItems_projP (fs : FsTree) (now : Int) (cfg : Config)
    (it : ScannedItem) (h : it ∈ projectItems fs now cfg) : ProjP now it := by
  rw [projectItems, mem_emitsOf] at h
  rw [projectTrace, scanProjects, if_neg (by simp)] at h
  exact scanRoots_projP fs now false cfg.max_depth cfg.scan_paths initW
    (fun it2 hit2 => absurd hit2 (by simp [initW])) it h

theorem isStaleAge_boundary (now : Int) :
    isStaleAge now (now - (90 * 86400 - 1)) = false := by
  have harg : now - (now - (90 * 86400 - 1)) = 7775999 := by ring
  rw [isStaleAge, harg]
  decide

theorem isStaleAge_old (now m : Int) (h : m ≤ now - 90 * 86400) :
    isStaleAge now m = true := by
  rw [isStaleAge]
  have h0 : (0 : Int) ≤ now - m := by omega
  have hdiv : (now - m).tdiv 86400 = (now - m) / 86400 :=
    Int.tdiv_eq_ediv h0 (by norm_num)
  have h90 : (90 : Int) ≤ (now - m) / 86400 := by
    rw [Int.le_ediv_iff_mul_le (by norm_num)]
    omega
  rw [if_neg (by omega)]
  simp only [staleThresholdDays, Nat.cast_ofNat, decide_eq_true_eq]
  omega

/-- C5.  Every DevArtifact item produced by the project-directory strategy
is stale exactly when its age reaches 90 days: at age 90 days minus one
second the item is not stale and its confidence is the DevArtifact base
weight; at age 90 days or more it is stale and its confidence is the base
weight plus 0.10, capped at 0.98. -/
theorem claim_C5 (fs : FsTree) (now : Int) (cfg : Config) (it : ScannedItem)
    (hmem : it ∈ projectItems fs now cfg)
    (hcat : it.category = FileCategory.DevArtifact) :
    (it.modified = now - (90 * 86400 - 1) →
      it.is_stale = false ∧
        it.confidence = FileCategory.DevArtifact.baseConfidence) ∧
    (it.modified ≤ now - 90 * 86400 →
      it.is_stale = true ∧
        it.confidence =
          min (FileCategory.DevArtifact.baseConfidence + 1/10) (98/100)) := by
  obtain ⟨-, hdev⟩ := projectItems_projP fs now cfg it hmem
  obtain ⟨hstale, hconf⟩ := hdev hcat
  constructor
  · intro hm
    rw [hm] at hstale hconf
    rw [isStaleAge_boundary] at hstale hconf
    refine ⟨hstale, ?_⟩
    rw [hconf]
    norm_num [FileCategory.baseConfidence]
  · intro hm
    rw [isStaleAge_old now it.modified hm] at hstale hconf
    refine ⟨hstale, ?_⟩
    rw [hconf]
    simp

/-- C5, witness: the stale boundary case of claim_C5 on a concrete
filesystem whose node_modules directory was modified exactly 90 days before
now = 7776000. -/
theorem claim_C5_witness :
    (devArtifactItem 7776000 ⟨["node_modules"], "node_modules", some 0⟩ 3).is_stale
        = true ∧
      (devArtifactItem 7776000 ⟨["node_modules"], "node_modules", some 0⟩ 3).confidence
        = min (FileCategory.DevArtifact.baseConfidence + 1/10) (98/100) := by
  have hmem : devArtifactItem 7776000 ⟨["node_modules"], "node_modules", some 0⟩ 3
      ∈ projectItems fsC5 7776000 cfgRoot := List.Mem.head _
  have h := (claim_C5 fsC5 7776000 cfgRoot _ hmem rfl).2
    (by norm_num [devArtifactItem])
  exact h

/-- C9.  Two configurations that agree on scan_paths, max_depth and
follow_symlinks produce the same items and the same accumulated stats over
the same filesystem, whatever their exclude_patterns, enabled_categories,
thresholds, show_hidden, use_trash and dry_run: the scanner reads no other
configuration field, taking its thresholds from the CategoryPatterns
constants. -/
theorem claim_C9 (fs : FsTree) (home downloads : Option Path) (now : Int)
    (order : List Strat) (c1 c2 : Config) (hp : c1.scan_paths = c2.scan_paths)
    (hd : c1.max_depth = c2.max_depth)
    (hf : c1.follow_symlinks = c2.follow_symlinks) :
    scanItems fs home downloads now c1 order
        = scanItems fs home downloads now c2 order ∧
      scanStatsOf (scanItems fs home downloads now c1 order)
        = scanStatsOf (scanItems fs home downloads now c2 order) := by
  have hstrat : stratTrace fs home downloads now c1
      = stratTrace fs home downloads now c2 := by
    funext s
    cases s with
    | knownCache => rfl
    | downloads => rfl
    | projects =>
      simp only [stratTrace, projectTrace, scanProjects, hp, hd]
  have hitems : scanItems fs home downloads now c1 order
      = scanItems fs home downloads now c2 order := by
    simp only [scanItems, fullScanTrace, hstrat]
  exact ⟨hitems, by rw [hitems]⟩

/-- C9, witness: claim_C9 on a concrete filesystem for two configurations
differing in every field the scanner ignores. -/
theorem claim_C9_witness :
    scanItems fsC5 (some ["h"]) (some ["d"]) 7776000 cfgRoot
        [Strat.knownCache, Strat.projects, Strat.downloads]
      = scanItems fsC5 (some ["h"]) (some ["d"]) 7776000 cfgAlt
        [Strat.knownCache, Strat.projects, Strat.downloads] :=
  (claim_C9 fsC5 (some ["h"]) (some ["d"]) 7776000
    [Strat.knownCache, Strat.projects, Strat.downloads] cfgRoot cfgAlt
    rfl rfl rfl).1

theorem cacheEvents_acc (fs : FsTree) (home : Option Path) (now : Int)
    (it : ScannedItem)
    (h : Event.emit it ∈ scanKnownCachePaths fs home now false) :
    it.accessed = it.modified := by
  rw [scanKnownCachePaths] at h
  simp only [Bool.false_eq_true, if_false, List.mem_append,
    List.mem_flatMap] at h
  rcases h with ⟨pc, hpc, p, hp, hin⟩ | h
  · rw [scanCachePath] at hin
    cases hsub : subtree? fs p with
    | none => simp only [hsub] at hin; simp at hin
    | some t =>
      simp only [hsub] at hin
      by_cases hdir : t.isDir = true
      · rw [if_pos hdir] at hin
        by_cases hsz : dirSizeAt fs p > 0
        · rw [if_pos hsz] at hin
          simp only [List.mem_singleton, Event.emit.injEq] at hin
          subst hin
          rfl
        · rw [if_neg hsz] at hin; simp at hin
      · rw [if_neg hdir] at hin; simp at hin
  · simp only [scanSystemCaches, Bool.false_eq_true, if_false,
      List.mem_flatMap] at h
    obtain ⟨root, hroot, hin⟩ := h
    cases hsub : subtree? fs root with
    | none => simp [sysRootEvents, hsub] at hin
    | some t =>
      cases t with
      | file n mOk sz mod eErr => simp [sysRootEvents, hsub] at hin
      | dir n mOk mod eErr cs =>
        simp only [sysRootEvents, hsub, FsTree.childrenOf, List.mem_flatMap,
          List.mem_filter, Bool.and_eq_true, Bool.not_eq_true',
          Bool.false_eq_true, if_false] at hin
        obtain ⟨c, -, hev⟩ := hin
        by_cases hsz : filesSum c > 1024 * 1024
        · rw [if_pos hsz] at hev
          simp only [List.mem_singleton, Event.emit.injEq] at hev
          subst hev
          rfl
        · rw [if_neg hsz] at hev; simp at hev

theorem downloadEvents_acc (fs : FsTree) (downloads : Option Path)
    (now : Int) (it : ScannedItem)
    (h : Event.emit it ∈ scanDownloads fs downloads now false) :
    it.accessed = it.modified := by
  rw [scanDownloads.eq_def] at h
  simp only [Bool.false_eq_true, if_false] at h
  cases downloads with
  | none => simp at h
  | some d =>
    cases hsub : subtree? fs d with
    | none => simp only [hsub] at h; simp at h
    | some t =>
      simp only [hsub, List.mem_filterMap] at h
      obtain ⟨c, -, hc⟩ := h
      cases hdec : downloadDecision now d c with
      | none => rw [hdec] at hc; simp at hc
      | some it2 =>
        rw [hdec] at hc
        simp only [Option.map_some', Option.some.injEq] at hc
        cases c with
        | dir n2 mOk2 mod2 e2 cs2 => rw [downloadDecision] at hdec; cases hdec
        | file n2 mOk2 sz2 mod2 e2 =>
          rw [downloadDecision] at hdec
          cases mOk2 with
          | false => simp at hdec
          | true =>
            rw [if_pos rfl] at hdec
            by_cases hm : (mod2.getD now) < now - (oldDownloadDays : Int) * 86400
            · rw [if_pos hm] at hdec
              simp only [Option.some.injEq] at hdec
              subst hdec
              cases hc
              rfl
            · rw [if_neg hm] at hdec; cases hdec

/-- C10.  Every item emitted by any strategy of a scan sets accessed equal
to modified: no strategy reads a last-accessed time, and the shared
fallback (used when the modified time is unreadable) stores the current
time into modified and hence into both fields. -/
theorem claim_C10 (fs : FsTree) (home downloads : Option Path) (now : Int)
    (cfg : Config) (order : List Strat) (it : ScannedItem)
    (h : it ∈ scanItems fs home downloads now cfg order) :
    it.accessed = it.modified := by
  rw [scanItems, mem_emitsOf, fullScanTrace] at h
  simp only [List.mem_flatten, List.mem_map] at h
  obtain ⟨tr, ⟨s, -, hs⟩, hin⟩ := h
  subst hs
  cases s with
  | knownCache => exact cacheEvents_acc fs home now it hin
  | downloads => exact downloadEvents_acc fs downloads now it hin
  | projects =>
    have := projectItems_projP fs now cfg it (by
      rw [projectItems, mem_emitsOf]; exact hin)
    exact this.1

/-- C10, witness: claim_C10 applied to the DevArtifact item of the concrete
scan of fsC5. -/
theorem claim_C10_witness :
    (devArtifactItem 7776000 ⟨["node_modules"], "node_modules", some 0⟩ 3).accessed
      = (devArtifactItem 7776000 ⟨["node_modules"], "node_modules", some 0⟩ 3).modified :=
  claim_C10 fsC5 none none 7776000 cfgRoot [Strat.projects] _
    (List.Mem.head _)

/-- C7, counterexample to the example in the claim as stated: the file name
app.tmp.log ends with no temp-marker suffix (ends_with checks a suffix, and
.tmp is not a suffix of the name), so both suffix sets do not match it; the
project walk classifies it LogFile, not TempFile. -/
theorem claim_C7_counterexample :
    tempExtensions.any
        (fun ext => nameEndsWith (lowerName "app.tmp.log") ext) = false ∧
      (projectItems fsC7 0 cfgRoot).map (fun it => it.category)
          = [FileCategory.LogFile] ∧
      FileCategory.LogFile ≠ FileCategory.TempFile := by
  refine ⟨by decide, by decide, by decide⟩

theorem isPrefixOf_true (l1 l2 : Path) : l1.isPrefixOf l2 = true ↔ l1 <+: l2 :=
  List.isPrefixOf_iff_prefix

theorem isPrefixOf_self (p : Path) : p.isPrefixOf p = true :=
  (isPrefixOf_true p p).mpr (List.prefix_refl p)

theorem pref_extend (p : Path) (x : String) (q : Path)
    (h : (p ++ [x]).isPrefixOf q = true) : p.isPrefixOf q = true :=
  (isPrefixOf_true p q).mpr
    ((List.prefix_append p [x]).trans ((isPrefixOf_true (p ++ [x]) q).mp h))

theorem pref_same_len (p1 p2 q : Path) (h1 : p1.isPrefixOf q = true)
    (h2 : p2.isPrefixOf q = true) (hl : p1.length = p2.length) : p1 = p2 := by
  rw [isPrefixOf_true] at h1 h2
  rcases List.prefix_or_prefix_of_prefix h1 h2 with h | h
  · exact h.eq_of_length hl
  · exact (h.eq_of_length hl.symm).symm

theorem strictBelow_self (p : Path) : strictBelow p p = false := by
  simp [strictBelow]

theorem strictBelow_of_no_pref (p P : Path) (h : P.isPrefixOf p = false) :
    strictBelow p P = false := by
  simp [strictBelow, h]

theorem dominatedBy_false_iff (arts : List Path) (p : Path) :
    dominatedBy arts p = false ↔ ∀ a ∈ arts, a.isPrefixOf p = false := by
  simp only [dominatedBy, List.any_eq_false]
  constructor
  · intro h a ha
    have h2 := h a ha
    revert h2
    cases hb : a.isPrefixOf p <;> simp
  · intro h a ha
    rw [h a ha]
    simp

theorem insertsOf_append (t1 t2 : List Event) :
    insertsOf (t1 ++ t2) = insertsOf t1 ++ insertsOf t2 := by
  simp [insertsOf, List.filterMap_append]

theorem insertsOf_emit (x : ScannedItem) : insertsOf [Event.emit x] = [] := rfl

theorem insertsOf_one (P : Path) : insertsOf [Event.insert P] = [P] := rfl

theorem all_mem_congr (f : Path → Bool) (s1 s2 : List Path)
    (h : ∀ P, P ∈ s1 ↔ P ∈ s2) : s1.all f = s2.all f := by
  by_cases h2 : s2.all f = true
  · rw [h2]
    rw [List.all_eq_true] at h2 ⊢
    exact fun x hx => h2 x ((h x).mp hx)
  · have h2f : s2.all f = false := by revert h2; cases s2.all f <;> simp
    rw [h2f]
    rw [List.all_eq_false] at h2f ⊢
    obtain ⟨x, hx, hfx⟩ := h2f
    exact ⟨x, (h x).mpr hx, hfx⟩

theorem domOKb_seen_congr (tr : List Event) (s1 s2 : List Path)
    (h : ∀ P, P ∈ s1 ↔ P ∈ s2) : domOKb tr s1 = domOKb tr s2 := by
  induction tr generalizing s1 s2 with
  | nil => rfl
  | cons e tr ih =>
    cases e with
    | insert P =>
      exact ih (P :: s1) (P :: s2) (by intro Q; simp [h Q])
    | emit it =>
      simp only [domOKb]
      rw [ih s1 s2 h, all_mem_congr _ s1 s2 h]

theorem domOKb_append (t1 t2 : List Event) (seen : List Path) :
    domOKb (t1 ++ t2) seen = true ↔
      (domOKb t1 seen = true ∧ domOKb t2 (insertsOf t1 ++ seen) = true) := by
  induction t1 generalizing seen with
  | nil => simp [domOKb, insertsOf]
  | cons e t1 ih =>
    cases e with
    | insert P =>
      simp only [List.cons_append, domOKb, List.append_eq]
      rw [ih (P :: seen)]
      have hcongr : domOKb t2 (insertsOf t1 ++ (P :: seen))
          = domOKb t2 (insertsOf (Event.insert P :: t1) ++ seen) := by
        refine domOKb_seen_congr t2 _ _ ?_
        intro Q
        simp only [insertsOf, List.filterMap_cons, List.mem_append,
          List.mem_cons]
        tauto
      rw [hcongr]
    | emit it =>
      simp only [List.cons_append, domOKb, Bool.and_eq_true, List.append_eq]
      rw [ih seen]
      have : insertsOf (Event.emit it :: t1) = insertsOf t1 := by
        simp [insertsOf, List.filterMap_cons]
      rw [this]
      tauto

theorem domOKb_snoc_insert (tr : List Event) (P : Path) :
    domOKb (tr ++ [Event.insert P]) [] = true ↔ domOKb tr [] = true := by
  rw [domOKb_append]
  simp [domOKb]

theorem domOKb_snoc_emit (tr : List Event) (x : ScannedItem) :
    domOKb (tr ++ [Event.emit x]) [] = true ↔
      (domOKb tr [] = true ∧
        ∀ P ∈ insertsOf tr, strictBelow x.path P = false) := by
  rw [domOKb_append]
  simp [domOKb, List.all_eq_true]

theorem walkOutN_rfl (p : Path) (st : WState) : WalkOutN p st st :=
  ⟨fun _ ha => Or.inl ha, fun _ ha => ha, fun _ hq => Or.inl hq, fun _ hq => hq⟩

theorem walkOutN_same (p : Path) (st st2 : WState)
    (ha : st2.artifacts = st.artifacts) (hq : st2.pending = st.pending) :
    WalkOutN p st st2 := by
  rw [WalkOutN, ha, hq]
  exact walkOutN_rfl p st

theorem traceInv_same (st st2 : WState) (h : TraceInv st)
    (ht : st2.trace = st.trace) (ha : st2.artifacts = st.artifacts)
    (hp : st2.pending = st.pending) : TraceInv st2 := by
  rw [TraceInv, ht, ha, hp]
  exact h

theorem wfForest_mem : ∀ (ts : FsForest) (c : FsTree), wfForest ts = true →
    c ∈ ts.toList → wfNames c = true
  | .nil, c, _, hc => by simp [FsForest.toList] at hc
  | .cons t tss, c, h, hc => by
    simp only [FsForest.toList, List.mem_cons] at hc
    rw [wfForest, Bool.and_eq_true] at h
    rcases hc with rfl | hc
    · exact h.1
    · exact wfForest_mem tss c h.2 hc

theorem wf_subtree (t : FsTree) (p : Path) (u : FsTree)
    (hwf : wfNames t = true) (h : subtree? t p = some u) : wfNames u = true := by
  induction p generalizing t with
  | nil =>
    rw [subtree?] at h
    cases h
    exact hwf
  | cons cname rest ih =>
    cases t with
    | file n mOk sz mod e => simp [subtree?] at h
    | dir n mOk mod e cs =>
      rw [subtree?] at h
      cases hf : (FsForest.toList cs).find? (fun t => t.name = cname) with
      | none => rw [hf] at h; cases h
      | some child =>
        rw [hf] at h
        have hmem : child ∈ cs.toList := List.mem_of_find?_eq_some hf
        rw [wfNames, Bool.and_eq_true] at hwf
        exact ih child (wfForest_mem cs child hwf.2 hmem) h

mutual
theorem walkNode_dom (now : Int) (b : Bool) (maxD : Nat) (t : FsTree)
    (p : Path) (d : Nat) (st : WState) (hwf : wfNames t = true)
    (hinv : TraceInv st) (hpre : PrePend p st) :
    TraceInv (walkNode now b maxD t p d st) ∧
      WalkOutN p st (walkNode now b maxD t p d st) := by
  obtain ⟨hI1, hI2, hI3, hI4⟩ := hinv
  rw [walkNode]
  by_cases hb : b = true
  · rw [if_pos hb]
    exact ⟨⟨hI1, hI2, hI3, hI4⟩, walkOutN_rfl p st⟩
  · rw [if_neg hb]
    by_cases he : t.entryErr = true
    · rw [if_pos he]
      exact ⟨⟨hI1, hI2, hI3, hI4⟩, walkOutN_rfl p st⟩
    · rw [if_neg he]
      by_cases hdom : dominatedBy st.artifacts p = true
      · rw [if_pos hdom]
        exact ⟨⟨hI1, hI2, hI3, hI4⟩, walkOutN_rfl p st⟩
      · rw [if_neg hdom]
        have hdom2 : dominatedBy st.artifacts p = false := by
          revert hdom; cases dominatedBy st.artifacts p <;> simp
        have hdomf := (dominatedBy_false_iff st.artifacts p).mp hdom2
        cases t with
        | file n mOk sz mod e =>
          simp only
          cases hfe : fileEmission now p n mOk sz mod with
          | none =>
            refine ⟨⟨hI1, hI2, hI3, hI4⟩, walkOutN_same p st _ rfl rfl⟩
          | some it =>
            obtain ⟨-, -, hpath⟩ := fileEmission_some now p n mOk sz mod it hfe
            refine ⟨⟨?_, ?_, hI3, hI4⟩, walkOutN_same p st _ rfl rfl⟩
            · refine (domOKb_snoc_emit st.trace it).mpr ⟨hI1, ?_⟩
              intro P hP
              refine strictBelow_of_no_pref it.path P ?_
              rw [hpath]
              exact hdomf P ((hI2 P).mpr hP)
            · intro P
              rw [insertsOf_append, insertsOf_emit, List.append_nil]
              exact hI2 P
        | dir n mOk mod e cs =>
          simp only
          by_cases hdev : n ∈ devArtifactDirs
          · rw [if_pos hdev]
            have hd1 : domOKb (st.trace ++ [Event.insert p]) [] = true :=
              (domOKb_snoc_insert st.trace p).mpr hI1
            have hd2 : ∀ P, P ∈ p :: st.artifacts ↔
                P ∈ insertsOf (st.trace ++ [Event.insert p]) := by
              intro P
              rw [insertsOf_append, insertsOf_one]
              simp only [List.mem_cons, List.mem_append, List.mem_singleton]
              have := hI2 P
              tauto
            have hd4core : ∀ q, (q ∈ st.pending ∨ q = (⟨p, n, mod⟩ : Pending)) →
                ∀ P, (P ∈ p :: st.artifacts) →
                strictBelow q.path P = false := by
              rintro q (hq | rfl) P hP
              · rcases List.mem_cons.mp hP with h | hP
                · rw [h]
                  exact strictBelow_of_no_pref q.path p (hpre q hq)
                · exact hI4 q hq P hP
              · rcases List.mem_cons.mp hP with h | hP
                · rw [h]
                  exact strictBelow_self p
                · exact strictBelow_of_no_pref p P (hdomf P hP)
            cases mOk with
            | true =>
              simp only [if_pos rfl]
              refine ⟨⟨hd1, hd2, ?_, ?_⟩, ?_⟩
              · intro q hq
                rcases List.mem_append.mp hq with hq | hq
                · exact List.mem_cons_of_mem p (hI3 q hq)
                · rcases List.mem_singleton.mp hq with rfl
                  exact List.mem_cons_self p st.artifacts
              · intro q hq P hP
                rcases List.mem_append.mp hq with hq | hq
                · exact hd4core q (Or.inl hq) P hP
                · rcases List.mem_singleton.mp hq with rfl
                  exact hd4core _ (Or.inr rfl) P hP
              · refine ⟨?_, ?_, ?_, ?_⟩
                · intro a ha
                  rcases List.mem_cons.mp ha with rfl | ha
                  · exact Or.inr (isPrefixOf_self a)
                  · exact Or.inl ha
                · exact fun a ha => List.mem_cons_of_mem p ha
                · intro q hq
                  rcases List.mem_append.mp hq with hq | hq
                  · exact Or.inl hq
                  · rcases List.mem_singleton.mp hq with rfl
                    exact Or.inr (isPrefixOf_self p)
                · exact fun q hq => List.mem_append_left _ hq
            | false =>
              simp only [Bool.false_eq_true, if_false]
              refine ⟨⟨hd1, hd2, ?_, ?_⟩, ?_⟩
              · intro q hq
                exact List.mem_cons_of_mem p (hI3 q hq)
              · intro q hq P hP
                exact hd4core q (Or.inl hq) P hP
              · refine ⟨?_, ?_, ?_, ?_⟩
                · intro a ha
                  rcases List.mem_cons.mp ha with rfl | ha
                  · exact Or.inr (isPrefixOf_self a)
                  · exact Or.inl ha
                · exact fun a ha => List.mem_cons_of_mem p ha
                · exact fun q hq => Or.inl hq
                · exact fun q hq => hq
          · rw [if_neg hdev]
            by_cases hd : d < maxD
            · rw [if_pos hd]
              rw [wfNames, Bool.and_eq_true] at hwf
              have hnodup : ((cs.toList).map FsTree.name).Nodup :=
                of_decide_eq_true hwf.1
              have hpreC : PreChildren p cs
                  { st with filesScanned := st.filesScanned + 1 } := by
                intro q hq c hc
                cases hb2 : (p ++ [c.name]).isPrefixOf q.path with
                | false => rfl
                | true =>
                  have h2 := pref_extend p c.name q.path hb2
                  rw [hpre q hq] at h2
                  exact Bool.noConfusion h2
              obtain ⟨hinv2, hout⟩ := walkChildren_dom now b maxD cs p (d + 1)
                { st with filesScanned := st.filesScanned + 1 } hwf.2 hnodup
                ⟨hI1, hI2, hI3, hI4⟩ hpreC
              refine ⟨hinv2, ?_, ?_, ?_, ?_⟩
              · intro a ha
                rcases hout.1 a ha with ha2 | ⟨c, -, hc2⟩
                · exact Or.inl ha2
                · exact Or.inr (pref_extend p c.name a hc2)
              · exact fun a ha => hout.2.1 a ha
              · intro q hq
                rcases hout.2.2.1 q hq with hq2 | ⟨c, -, hc2⟩
                · exact Or.inl hq2
                · exact Or.inr (pref_extend p c.name q.path hc2)
              · exact fun q hq => hout.2.2.2 q hq
            · rw [if_neg hd]
              exact ⟨⟨hI1, hI2, hI3, hI4⟩, walkOutN_same p st _ rfl rfl⟩
theorem walkChildren_dom (now : Int) (b : Bool) (maxD : Nat) (ts : FsForest)
    (p : Path) (d : Nat) (st : WState) (hwf : wfForest ts = true)
    (hnodup : ((ts.toList).map FsTree.name).Nodup)
    (hinv : TraceInv st) (hpre : PreChildren p ts st) :
    TraceInv (walkChildren now b maxD ts p d st) ∧
      WalkOutF p ts st (walkChildren now b maxD ts p d st) := by
  cases ts with
  | nil =>
    rw [walkChildren_nil]
    exact ⟨hinv, fun a ha => Or.inl ha, fun a ha => ha,
      fun q hq => Or.inl hq, fun q hq => hq⟩
  | cons c cs =>
    rw [walkChildren_cons]
    rw [wfForest, Bool.and_eq_true] at hwf
    have htl : (FsForest.cons c cs).toList = c :: cs.toList := rfl
    rw [htl, List.map_cons, List.nodup_cons] at hnodup
    have hpre1 : PrePend (p ++ [c.name]) st := by
      intro q hq
      exact hpre q hq c (by rw [htl]; exact List.mem_cons_self c cs.toList)
    obtain ⟨hinv1, hout1⟩ :=
      walkNode_dom now b maxD c (p ++ [c.name]) d st hwf.1 hinv hpre1
    have hpre2 : PreChildren p cs
        (walkNode now b maxD c (p ++ [c.name]) d st) := by
      intro q hq c2 hc2
      rcases hout1.2.2.1 q hq with hold | hnew
      · exact hpre q hold c2 (by rw [htl]; exact List.mem_cons_of_mem c hc2)
      · cases hb2 : (p ++ [c2.name]).isPrefixOf q.path with
        | false => rfl
        | true =>
          have heq : p ++ [c.name] = p ++ [c2.name] :=
            pref_same_len _ _ _ hnew hb2 (by simp)
          have hname : c.name = c2.name := by
            have h3 := List.append_cancel_left heq
            simpa using h3
          exact absurd (hname ▸ List.mem_map_of_mem FsTree.name hc2) hnodup.1

    obtain ⟨hinv2, hout2⟩ := walkChildren_dom now b maxD cs p d
      (walkNode now b maxD c (p ++ [c.name]) d st) hwf.2 hnodup.2 hinv1 hpre2
    refine ⟨hinv2, ?_, ?_, ?_, ?_⟩
    · intro a ha
      rcases hout2.1 a ha with ha2 | ⟨c2, hc2, hpf⟩
      · rcases hout1.1 a ha2 with ha3 | hpf
        · exact Or.inl ha3
        · exact Or.inr ⟨c, by rw [htl]; exact List.mem_cons_self c cs.toList, hpf⟩
      · exact Or.inr ⟨c2, by rw [htl]; exact List.mem_cons_of_mem c hc2, hpf⟩
    · exact fun a ha => hout2.2.1 a (hout1.2.1 a ha)
    · intro q hq
      rcases hout2.2.2.1 q hq with hq2 | ⟨c2, hc2, hpf⟩
      · rcases hout1.2.2.1 q hq2 with hq3 | hpf
        · exact Or.inl hq3
        · exact Or.inr ⟨c, by rw [htl]; exact List.mem_cons_self c cs.toList, hpf⟩
      · exact Or.inr ⟨c2, by rw [htl]; exact List.mem_cons_of_mem c hc2, hpf⟩
    · exact fun q hq => hout2.2.2.2 q (hout1.2.2.2 q hq)
end

theorem processPending_dom (fs : FsTree) (now : Int) (b : Bool)
    (qs : List Pending) (st : WState)
    (h1 : domOKb st.trace [] = true)
    (h2 : ∀ P, P ∈ st.artifacts ↔ P ∈ insertsOf st.trace)
    (h3 : ∀ q ∈ qs, ∀ P ∈ st.artifacts, strictBelow q.path P = false) :
    domOKb (processPending fs now b qs st).trace [] = true ∧
      (∀ P, P ∈ (processPending fs now b qs st).artifacts ↔
        P ∈ insertsOf (processPending fs now b qs st).trace) := by
  induction qs generalizing st with
  | nil => rw [processPending]; exact ⟨h1, h2⟩
  | cons q qs ih =>
    rw [processPending]
    by_cases hb : b = true
    · rw [if_pos hb]
      exact ih st h1 h2 (fun q2 hq2 => h3 q2 (List.mem_cons_of_mem q hq2))
    · rw [if_neg hb]
      refine ih _ ?_ ?_ ?_
      · refine (domOKb_snoc_emit st.trace _).mpr ⟨h1, ?_⟩
        intro P hP
        have hpath : (devArtifactItem now q (dirSizeAt fs q.path)).path
            = q.path := rfl
        rw [hpath]
        exact h3 q (List.mem_cons_self q qs) P ((h2 P).mpr hP)
      · intro P
        rw [insertsOf_append, insertsOf_emit, List.append_nil]
        exact h2 P
      · intro q2 hq2 P hP
        exact h3 q2 (List.mem_cons_of_mem q hq2) P hP

theorem scanRoots_dom (fs : FsTree) (now : Int) (b : Bool) (maxD : Nat)
    (rs : List Path) (st : WState) (hwf : wfNames fs = true)
    (h1 : domOKb st.trace [] = true)
    (h2 : ∀ P, P ∈ st.artifacts ↔ P ∈ insertsOf st.trace) :
    domOKb (scanRoots fs now b maxD rs st).trace [] = true := by
  induction rs generalizing st with
  | nil => rw [scanRoots]; exact h1
  | cons r rs ih =>
    rw [scanRoots]
    cases hsub : subtree? fs r with
    | none => simp only [hsub]; exact ih st h1 h2
    | some t =>
      simp only [hsub]
      by_cases hb : b = true
      · rw [if_pos hb]; exact ih st h1 h2
      · rw [if_neg hb]
        have hwft := wf_subtree fs r t hwf hsub
        have hinv0 : TraceInv { st with pending := [] } :=
          ⟨h1, h2, fun q hq => absurd hq (List.not_mem_nil q),
            fun q hq => absurd hq (List.not_mem_nil q)⟩
        have hpre0 : PrePend r { st with pending := [] } :=
          fun q hq => absurd hq (List.not_mem_nil q)
        obtain ⟨hinv1, -⟩ := walkNode_dom now b maxD t r 0
          { st with pending := [] } hwft hinv0 hpre0
        obtain ⟨hI1, hI2, hI3, hI4⟩ := hinv1
        obtain ⟨hp1, hp2⟩ := processPending_dom fs now b
          (walkNode now b maxD t r 0 { st with pending := [] }).pending
          { walkNode now b maxD t r 0 { st with pending := [] } with
            pending := [] }
          hI1 hI2 hI4
        exact ih _ hp1 hp2

/-- C2, amended.  Within the project-directory strategy, the only consumer
of the dominance set, the claim holds: in its event trace, once a path P is
inserted into found_artifacts, no later item of the strategy is emitted for
a strict descendant of P, provided sibling names in the filesystem are
distinct (as on a real filesystem).  The other strategies never consult the
dominance set, and the counterexample exhibits a full-scan schedule in
which the known-cache strategy emits a strict descendant of an inserted
root. -/
theorem claim_C2 (fs : FsTree) (now : Int) (cfg : Config)
    (hwf : wfNames fs = true) :
    domOKb (projectTrace fs now cfg) [] = true := by
  rw [projectTrace, scanProjects, if_neg (by simp)]
  exact scanRoots_dom fs now false cfg.max_depth cfg.scan_paths initW hwf rfl
    (fun P => by simp [initW, insertsOf])

/-- C2, witness: the amended dominance property on the concrete filesystem
fsC2, whose walk inserts the artifact root /build and then emits only the
root itself. -/
theorem claim_C2_witness :
    domOKb (projectTrace fsC2 100 cfgRoot) [] = true :=
  claim_C2 fsC2 100 cfgRoot (by decide)

/-- C2, counterexample to the claim as stated: with the home directory
/build (a directory carrying a dev-artifact name), the project strategy
inserts /build into the dominance set, yet under the admissible schedule
that runs the known-cache strategy afterwards, a PackageCache item is
emitted for /build/.npm, a strict descendant of the recorded root: the
dominance set does not bind the other strategies of the scan. -/
theorem claim_C2_counterexample :
    domOKb (fullScanTrace fsC2 (some ["build"]) none 100 cfgRoot
      [Strat.projects, Strat.knownCache, Strat.downloads]) [] = false := by
  decide

end Sweeper
